import Mathlib

/-!
Verification of the Overleaf git client (`src/overleaf-git-client.js`).

Strings are modelled as `List Char`; JavaScript string operations
(`includes`, `endsWith`, `replaceAll`) are embedded as executable
functions on `List Char`.  Subprocess and filesystem effects are
modelled by passing their outcomes as explicit parameters and by an
explicit filesystem state.
-/

namespace OverleafMCP

/-- JS strings, modelled as lists of characters. -/
abbrev Str := List Char

/-- Literal string embedding. -/
def cs (s : String) : Str := s.toList

/-- The character class of the validation regex `/^[a-zA-Z0-9_-]+$/`
(constructor, lines 11 and 14). -/
def isTokenChar (c : Char) : Bool :=
  ('a' ≤ c && c ≤ 'z') || ('A' ≤ c && c ≤ 'Z') || ('0' ≤ c && c ≤ '9') ||
    c == '_' || c == '-'

/-- Test of the validation regex on a whole string: nonempty and all
characters allowed. -/
def validId (s : Str) : Bool := !s.isEmpty && s.all isTokenChar

/-- JS `hay.includes(needle)`: literal contiguous substring test. -/
def containsB (hay needle : Str) : Bool :=
  match hay with
  | [] => needle.isEmpty
  | _ :: rest => needle.isPrefixOf hay || containsB rest needle

/-- JS `s.endsWith(suffix)`. -/
def jsEndsWith (s suf : Str) : Bool := List.isSuffixOf suf s

/-- Fuel-driven worker for `replaceAll` with a nonempty search string
`t :: ts`: scan left to right; at each position, if the search string is
a prefix, emit `rep` and skip past the match, else emit one character.
`fuel` is an upper bound on the length of the remaining input, so the
recursion is structural and the function evaluates in the kernel. -/
def replaceAllFuel (t : Char) (ts rep : Str) : Nat → Str → Str
  | _, [] => []
  | 0, _ => []
  | fuel + 1, c :: rest =>
    if (t :: ts).isPrefixOf (c :: rest) then
      rep ++ replaceAllFuel t ts rep fuel (rest.drop ts.length)
    else
      c :: replaceAllFuel t ts rep fuel rest

/-- JS `s.replaceAll(tok, rep)` for a string (literal) search argument.
For an empty search string JS inserts `rep` at every position boundary. -/
def jsReplaceAll (tok rep s : Str) : Str :=
  match tok with
  | [] => rep ++ (s.map (fun c => c :: rep)).flatten
  | t :: ts => replaceAllFuel t ts rep s.length s

/-- The redaction placeholder (line 55). -/
def PH : Str := cs "[REDACTED]"

/-- The error-like objects produced by `execFileAsync`: a message plus
optionally captured stdout/stderr. -/
structure JsError where
  message : Str
  stdout : Option Str := none
  stderr : Option Str := none
deriving DecidableEq

/-- Redaction of one optional captured field: the field is redacted only
when present and truthy (a non-empty string), mirroring
`if (error.stderr) error.stderr = error.stderr.replaceAll(...)`. -/
def redactOptField (tok : Str) (f : Option Str) : Option Str :=
  match f with
  | none => none
  | some s => if s.isEmpty then some s else some (jsReplaceAll tok PH s)

/-- Function _redactError (lines 53-64): replaces every literal occurrence of
the token in message, stderr and stdout by the placeholder; the message
is only touched when both the token and the message are truthy. -/
def redactError (tok : Str) (e : JsError) : JsError :=
  { message :=
      if tok.isEmpty || e.message.isEmpty then e.message
      else jsReplaceAll tok PH e.message
    stderr := redactOptField tok e.stderr
    stdout := redactOptField tok e.stdout }

/-- Client fields set by the constructor (lines 17-22). -/
structure OverleafGitClient where
  gitToken : Str
  projectId : Str
  tempDir : Str
deriving DecidableEq

/-- Constructor error for an invalid project id (line 12). -/
def errProjectId : Str := cs "projectId must be alphanumeric (with hyphens/underscores)"

/-- Constructor error for an invalid token (line 15). -/
def errGitToken : Str := cs "gitToken must be alphanumeric (with hyphens/underscores)"

/-- The constructor (lines 10-23): validates `projectId` first, then
`gitToken`, against `/^[a-zA-Z0-9_-]+$/`. -/
def mkClient (gitToken projectId tempDir : Str) : Except Str OverleafGitClient :=
  if !validId projectId then Except.error errProjectId
  else if !validId gitToken then Except.error errGitToken
  else Except.ok ⟨gitToken, projectId, tempDir⟩

/-- Join of two path segments, as `path.join(a, b)` behaves on the
simple segments the client uses. -/
def joinPath (a b : Str) : Str := a ++ cs "/" ++ b

/-- The working copy path `this.localPath = path.join(this.tempDir, projectId)`
(line 21). -/
def localPath (c : OverleafGitClient) : Str := joinPath c.tempDir c.projectId

/-- The clone URL (line 87): `https://git@git.overleaf.com/${projectId}`. -/
def cloneUrl (pid : Str) : Str := cs "https://git@git.overleaf.com/" ++ pid

/-- The askpass script path (line 27):
`path.join(tempDir, askpass-{projectId}-{uuid}.sh)` where `uuid` is the
freshly generated random component. -/
def askPassPath (c : OverleafGitClient) (uuid : Str) : Str :=
  c.tempDir ++ cs "/askpass-" ++ c.projectId ++ cs "-" ++ uuid ++ cs ".sh"

/-- The askpass script content (line 30): `#!/bin/sh\necho '<token>'\n`. -/
def askPassContent (tok : Str) : Str :=
  cs "#!/bin/sh\necho '" ++ tok ++ cs "'\n"

/-- The askpass script file mode (line 30): `0o700`. -/
def askPassMode : Nat := 0o700

/-- Owner permission bits of a mode. -/
def modeOwner (m : Nat) : Nat := m / 64 % 8

/-- Group permission bits of a mode. -/
def modeGroup (m : Nat) : Nat := m / 8 % 8

/-- Other permission bits of a mode. -/
def modeOther (m : Nat) : Nat := m % 8

/-- Userinfo component of an `https://` URL: the part of the authority
(text between the scheme separator and the next `/`) before an `@`,
when an `@` is present. -/
def urlUserinfo (u : Str) : Option Str :=
  if ((u.drop 8).takeWhile (fun c => c != '/')).contains '@' then
    some ((((u.drop 8).takeWhile (fun c => c != '/'))).takeWhile (fun c => c != '@'))
  else none

/-- Outcome of the existence probe `fs.access(this.localPath)` (line 75). -/
inductive ProbeResult where
  | found
  | notFound
  | errorOther
deriving DecidableEq

/-- The `exists` flag (lines 73-77): set only when the probe succeeds;
the bare `catch {}` maps every failure to `false`. -/
def existsFlag : ProbeResult → Bool
  | .found => true
  | _ => false

/-- Which git action `cloneOrPull` runs (lines 79-91). -/
inductive SyncAction where
  | pulled
  | cloned
deriving DecidableEq

/-- Client-visible filesystem/handler state: the `_askPassScript` record
(line 22) and the set of existing files. -/
structure FsState where
  askPassScript : Option Str
  files : List Str
deriving DecidableEq

/-- Function _createAskPassScript (lines 25-33): memoized; otherwise writes a
fresh script file (the random component `uuid` is an input here) and
records it. -/
def createAskPass (c : OverleafGitClient) (uuid : Str) (st : FsState) : Str × FsState :=
  match st.askPassScript with
  | some p => (p, st)
  | none => (askPassPath c uuid, ⟨some (askPassPath c uuid), askPassPath c uuid :: st.files⟩)

/-- Function _cleanupAskPassScript (lines 35-40): unlinks the recorded script
(failure of `unlink` on an absent file is swallowed, which makes the
cleanup idempotent) and clears the record. -/
def cleanupAskPass (st : FsState) : FsState :=
  match st.askPassScript with
  | none => st
  | some p => ⟨none, st.files.erase p⟩

/-- The sync operation cloneOrPull (lines 66-97).  The probe outcome and the git
subprocess outcome are inputs; on a git failure the error is redacted
and re-thrown; the askpass script is cleaned up in `finally`. -/
def cloneOrPull (c : OverleafGitClient) (uuid : Str) (probe : ProbeResult)
    (gitResult : Except JsError Str) (st : FsState) :
    Except JsError Unit × SyncAction × FsState :=
  (match gitResult with
    | .ok _ => .ok ()
    | .error e => .error (redactError c.gitToken e),
   (if existsFlag probe then SyncAction.pulled else SyncAction.cloned),
   cleanupAskPass (createAskPass c uuid st).2)

/-- The benign commit result (line 204). -/
def commitBenign : Str := cs "Nothing to commit, working tree clean"

/-- The commit operation (lines 187-213).  `gitResult` is the outcome of the
`add`/`commit` subprocess sequence.  On failure: the combined
`message + " " + stdout` text is checked for the "nothing to commit"
marker; then the (unredacted) message for "timeout" (the JS truthiness
guard on `error.message` is subsumed: an empty message contains no
marker); otherwise the redacted message is wrapped.  Cleanup runs in
`finally`. -/
def commitOp (c : OverleafGitClient) (uuid : Str) (gitResult : Except JsError Str)
    (st : FsState) : Except Str Str × FsState :=
  (match gitResult with
    | .ok out => .ok (if out.isEmpty then cs "Commit successful" else out)
    | .error e =>
      if containsB (e.message ++ cs " " ++ e.stdout.getD []) (cs "nothing to commit") then
        .ok commitBenign
      else if containsB e.message (cs "timeout") then
        .error (cs "Commit operation timed out")
      else
        .error (cs "Commit failed: " ++ (redactError c.gitToken e).message),
   cleanupAskPass (createAskPass c uuid st).2)

/-- The push operation (lines 215-236).  On failure the error is redacted first
(in place), then classified sequentially: timeout, then `403`, then a
generic wrap of the redacted message.  Cleanup runs in `finally`. -/
def pushOp (c : OverleafGitClient) (uuid : Str) (gitResult : Except JsError Str)
    (st : FsState) : Except Str Str × FsState :=
  (match gitResult with
    | .ok out => .ok (if out.isEmpty then cs "Push successful" else out)
    | .error e =>
      if containsB (redactError c.gitToken e).message (cs "timeout") then
        .error (cs "Push operation timed out - check network connection")
      else if containsB (redactError c.gitToken e).message (cs "403") then
        .error (cs "Push failed: Authentication error - check git token")
      else
        .error (cs "Push failed: " ++ (redactError c.gitToken e).message),
   cleanupAskPass (createAskPass c uuid st).2)

/-- Whether an operation resolved (`.ok`) rather than threw. -/
def exceptIsOk {ε α : Type} : Except ε α → Bool
  | .ok _ => true
  | .error _ => false

/-- The three remote-touching operations. -/
inductive RemoteOp where
  | sync (hasLocal : Bool)
  | commitMsg (msg : Str)
  | push
deriving DecidableEq

/-- The complete argument vectors (program name included) passed to
`execFileAsync` by each remote-touching operation (lines 81, 88, 190,
195, 218). -/
def opArgvs (c : OverleafGitClient) : RemoteOp → List (List Str)
  | .sync true => [[cs "git", cs "pull"]]
  | .sync false => [[cs "git", cs "clone", cloneUrl c.projectId, localPath c]]
  | .commitMsg msg => [[cs "git", cs "add", cs "-A"], [cs "git", cs "commit", cs "-m", msg]]
  | .push => [[cs "git", cs "push"]]

/-- Every fixed string that appears in some argument vector. -/
def fixedGitWords : List Str :=
  [cs "git", cs "pull", cs "clone", cs "add", cs "-A", cs "commit", cs "-m", cs "push",
   cs "https://git@git.overleaf.com/"]

/-- The handler path an operation uses from state `st`. -/
def handlerPath (c : OverleafGitClient) (uuid : Str) (st : FsState) : Str :=
  (createAskPass c uuid st).1

/-- The freshness assumption on the incoming state: a newly generated
script path does not already exist, and a recorded one is not
duplicated in the file list. -/
def freshOk (c : OverleafGitClient) (uuid : Str) (st : FsState) : Prop :=
  match st.askPassScript with
  | none => askPassPath c uuid ∉ st.files
  | some q => st.files.count q ≤ 1

/-- Modelled from `/bin/sh` semantics for the single command the
askpass script contains: `echo '<text>'` (no quote inside `<text>`)
writes `<text>` followed by a newline to standard output. -/
def shEchoOutput (line : Str) : Option Str :=
  if (cs "echo '").isPrefixOf line then
    if ((line.drop 6).getLast? == some '\'') && !((line.drop 6).dropLast.contains '\'') then
      some ((line.drop 6).dropLast ++ ['\n'])
    else none
  else none

/-- A directory tree as seen by the recursive walk in `listFiles`. -/
inductive FsEntry where
  | file (name : Str)
  | dir (name : Str) (entries : List FsEntry)

/-- Composition of `path.join` with `path.relative(this.localPath, ...)`:
relative paths are built directly. -/
def relJoin (pfx n : Str) : Str := if pfx.isEmpty then n else pfx ++ cs "/" ++ n

mutual

/-- One entry of `walk` (lines 106-113): directories other than `.git`
are recursed into; files are kept when the filter accepts their name. -/
def walkEntry (keep : Str → Bool) (pfx : Str) : FsEntry → List Str
  | .file n => if keep n then [relJoin pfx n] else []
  | .dir n es => if n == cs ".git" then [] else walkEntries keep (relJoin pfx n) es

/-- The walk over a directory's entries in order (lines 103-114). -/
def walkEntries (keep : Str → Bool) (pfx : Str) : List FsEntry → List Str
  | [] => []
  | e :: es => walkEntry keep pfx e ++ walkEntries keep pfx es

end

/-- The JS argument in `listFiles(extension = '.tex')`: omitted (or
`undefined`), `null`, or a string. -/
inductive JsExtArg where
  | omitted
  | nullArg
  | strArg (s : Str)

/-- A JS value for the resolved `extension` parameter. -/
inductive JsVal where
  | nullv
  | strv (s : Str)

/-- Default-parameter resolution: only an omitted/`undefined` argument
takes the default `'.tex'`. -/
def defaultExt : JsExtArg → JsVal
  | .omitted => .strv (cs ".tex")
  | .nullArg => .nullv
  | .strArg s => .strv s

/-- The filter `(!extension || entry.name.endsWith(extension))`
(line 110): a falsy extension (null or empty string) keeps every file. -/
def extKeep (v : JsVal) (name : Str) : Bool :=
  match v with
  | .nullv => true
  | .strv s => s.isEmpty || jsEndsWith name s

/-- The listFiles operation (lines 99-118), with the synchronization step elided:
walks the working copy and returns relative paths of kept files. -/
def listFilesModel (a : JsExtArg) (root : List FsEntry) : List Str :=
  walkEntries (extKeep (defaultExt a)) [] root

/-! ### Substring lemmas -/

theorem prefixOf_iff (n h : Str) : n.isPrefixOf h = true ↔ ∃ t, n ++ t = h := by
  rw [List.isPrefixOf_iff_prefix]
  exact Iff.rfl

theorem prefixOf_append_self (n x : Str) : n.isPrefixOf (n ++ x) = true := by
  rw [prefixOf_iff]
  exact ⟨x, rfl⟩

theorem prefixOf_self (n : Str) : n.isPrefixOf n = true := by
  rw [prefixOf_iff]
  exact ⟨[], List.append_nil n⟩

theorem containsB_iff (hay needle : Str) :
    containsB hay needle = true ↔ ∃ p q, (p ++ needle) ++ q = hay := by
  induction hay with
  | nil =>
    simp only [containsB, List.isEmpty_iff]
    constructor
    · rintro rfl
      exact ⟨[], [], rfl⟩
    · rintro ⟨p, q, hpq⟩
      exact (List.append_eq_nil.mp (List.append_eq_nil.mp hpq).1).2
  | cons c rest ih =>
    simp only [containsB, Bool.or_eq_true]
    constructor
    · rintro (hpre | hrest)
      · obtain ⟨t, ht⟩ := (prefixOf_iff _ _).mp hpre
        exact ⟨[], t, by simpa using ht⟩
      · obtain ⟨p, q, hpq⟩ := ih.mp hrest
        exact ⟨c :: p, q, by simp [hpq]⟩
    · rintro ⟨p, q, hpq⟩
      cases p with
      | nil =>
        left
        rw [prefixOf_iff]
        exact ⟨q, by simpa using hpq⟩
      | cons x p =>
        right
        apply ih.mpr
        rw [List.cons_append, List.cons_append] at hpq
        injection hpq with _ h2
        exact ⟨p, q, h2⟩

theorem containsB_of_prefixOf {n h : Str} (hp : n.isPrefixOf h = true) :
    containsB h n = true := by
  rw [containsB_iff]
  obtain ⟨t, ht⟩ := (prefixOf_iff _ _).mp hp
  exact ⟨[], t, by simpa using ht⟩

theorem containsB_self (n : Str) : containsB n n = true :=
  containsB_of_prefixOf (prefixOf_self n)

theorem containsB_append_left {a n : Str} (b : Str) (h : containsB a n = true) :
    containsB (a ++ b) n = true := by
  rw [containsB_iff] at h ⊢
  obtain ⟨p, q, hpq⟩ := h
  exact ⟨p, q ++ b, by rw [← List.append_assoc, hpq]⟩

theorem containsB_append_right {b n : Str} (a : Str) (h : containsB b n = true) :
    containsB (a ++ b) n = true := by
  rw [containsB_iff] at h ⊢
  obtain ⟨p, q, hpq⟩ := h
  exact ⟨a ++ p, q, by simp [hpq, List.append_assoc]⟩

theorem containsB_cons_of {c : Char} {h n : Str} (hh : containsB h n = true) :
    containsB (c :: h) n = true := by
  simp [containsB, hh]

theorem prefixOf_append_cases {n a b : Str} (h : n.isPrefixOf (a ++ b) = true) :
    n.isPrefixOf a = true ∨ ∃ n2, n = a ++ n2 ∧ n2.isPrefixOf b = true := by
  induction a generalizing n with
  | nil =>
    right
    exact ⟨n, by simp, by simpa using h⟩
  | cons x a ih =>
    cases n with
    | nil => left; rfl
    | cons e n =>
      rw [List.cons_append] at h
      have h' : (e == x) = true ∧ n.isPrefixOf (a ++ b) = true := by
        simpa [List.isPrefixOf, Bool.and_eq_true] using h
      have hex : e = x := by simpa using h'.1
      rcases ih h'.2 with hpa | ⟨n2, hn2, hp2⟩
      · left
        simp [List.isPrefixOf, hex, hpa]
      · right
        exact ⟨n2, by simp [hex, hn2], hp2⟩

theorem containsB_append_cases {n a b : Str} (hn : n ≠ []) (h : containsB (a ++ b) n = true) :
    containsB a n = true ∨ containsB b n = true ∨
      ∃ n1 n2, n1 ++ n2 = n ∧ n1 ≠ [] ∧ n2 ≠ [] ∧
        (∃ p, p ++ n1 = a) ∧ (∃ q, n2 ++ q = b) := by
  induction a with
  | nil =>
    right; left
    simpa using h
  | cons c a ih =>
    rw [List.cons_append] at h
    rcases (by simpa [containsB, Bool.or_eq_true] using h :
        n.isPrefixOf (c :: (a ++ b)) = true ∨ containsB (a ++ b) n = true) with hpre | hrest
    · rw [← List.cons_append] at hpre
      rcases prefixOf_append_cases hpre with hpa | ⟨n2, hn2, hp2⟩
      · left
        exact containsB_of_prefixOf hpa
      · cases hq2 : n2 with
        | nil =>
          left
          subst hq2
          rw [List.append_nil] at hn2
          exact hn2 ▸ containsB_self (c :: a)
        | cons y ys =>
          right; right
          refine ⟨c :: a, n2, hn2.symm ▸ ?_, by simp, by simp [hq2], ⟨[], rfl⟩, ?_⟩
          · rfl
          · obtain ⟨q, hq⟩ := (prefixOf_iff _ _).mp hp2
            exact ⟨q, hq⟩
    · rcases ih hrest with ha | hb | ⟨n1, n2, heq, h1, h2, ⟨p, hp⟩, hq⟩
      · left
        exact containsB_cons_of ha
      · right; left
        exact hb
      · right; right
        exact ⟨n1, n2, heq, h1, h2, ⟨c :: p, by simp [hp]⟩, hq⟩

theorem mem_of_snoc_split {p n1 a0 : Str} {j : Char}
    (h : p ++ n1 = a0 ++ [j]) (hne : n1 ≠ []) : j ∈ n1 := by
  rcases List.eq_nil_or_concat n1 with hnil | ⟨L, b, hLb⟩
  · exact absurd hnil hne
  · rw [List.concat_eq_append] at hLb
    subst hLb
    rw [← List.append_assoc] at h
    have hbj : b = j := by
      have := (List.append_inj' h rfl).2
      injection this
    subst hbj
    exact List.mem_append_right L (List.mem_singleton.mpr rfl)

theorem mem_of_cons_split {n2 q b0 : Str} {j : Char}
    (h : n2 ++ q = j :: b0) (hne : n2 ≠ []) : j ∈ n2 := by
  cases n2 with
  | nil => exact absurd rfl hne
  | cons e n2 =>
    rw [List.cons_append] at h
    have : e = j := (List.cons.injEq e _ j _ ▸ h).1
    simp [this]

theorem containsB_singleton {n : Str} {j : Char} (hne : n ≠ []) (hj : j ∉ n) :
    containsB [j] n = false := by
  cases n with
  | nil => exact absurd rfl hne
  | cons e n' =>
    have hej : (e == j) = false := by
      rw [beq_eq_false_iff_ne]
      intro he
      exact hj (he ▸ List.mem_cons_self e n')
    simp [containsB, List.isPrefixOf, hej]

theorem containsB_append_last {a0 b n : Str} {j : Char}
    (hne : n ≠ []) (hj : j ∉ n)
    (ha : containsB (a0 ++ [j]) n = false) (hb : containsB b n = false) :
    containsB ((a0 ++ [j]) ++ b) n = false := by
  cases hc : containsB ((a0 ++ [j]) ++ b) n with
  | false => rfl
  | true =>
    exfalso
    rcases containsB_append_cases hne hc with h1 | h2 | ⟨n1, n2, heq, hn1, _, ⟨p, hp⟩, _⟩
    · rw [ha] at h1; exact Bool.false_ne_true h1
    · rw [hb] at h2; exact Bool.false_ne_true h2
    · exact hj (heq ▸ List.mem_append_left n2 (mem_of_snoc_split hp hn1))

theorem containsB_append_head {a b0 n : Str} {j : Char}
    (hne : n ≠ []) (hj : j ∉ n)
    (ha : containsB a n = false) (hb : containsB (j :: b0) n = false) :
    containsB (a ++ j :: b0) n = false := by
  cases hc : containsB (a ++ j :: b0) n with
  | false => rfl
  | true =>
    exfalso
    rcases containsB_append_cases hne hc with h1 | h2 | ⟨n1, n2, heq, _, hn2, _, ⟨q, hq⟩⟩
    · rw [ha] at h1; exact Bool.false_ne_true h1
    · rw [hb] at h2; exact Bool.false_ne_true h2
    · exact hj (heq ▸ List.mem_append_right n1 (mem_of_cons_split hq hn2))

/-! ### Validation charset lemmas -/

theorem validId_mem {s : Str} (hv : validId s = true) :
    s ≠ [] ∧ ∀ x ∈ s, isTokenChar x = true := by
  unfold validId at hv
  rw [Bool.and_eq_true] at hv
  refine ⟨?_, List.all_eq_true.mp hv.2⟩
  intro hnil
  rw [hnil] at hv
  exact Bool.false_ne_true (by simpa using hv.1)

theorem not_mem_of_validId {s : Str} {c : Char} (hv : validId s = true)
    (hc : isTokenChar c = false) : c ∉ s := by
  intro hm
  rw [(validId_mem hv).2 c hm] at hc
  exact Bool.false_ne_true hc.symm

/-! ### Properties of `replaceAll` -/

theorem isPrefixOf_cons_cons (x y : Char) (xs ys : Str) :
    (x :: xs).isPrefixOf (y :: ys) = ((x == y) && xs.isPrefixOf ys) := rfl

theorem nil_isPrefixOf (l : Str) : List.isPrefixOf [] l = true := by cases l <;> rfl

theorem replaceAllFuel_nil (t : Char) (ts rep : Str) (fuel : Nat) :
    replaceAllFuel t ts rep fuel [] = [] := by
  cases fuel <;> rfl

theorem replaceAllFuel_zero (t : Char) (ts rep s : Str) :
    replaceAllFuel t ts rep 0 s = [] := by
  cases s <;> rfl

theorem replaceAllFuel_cons_pos {t : Char} {ts : Str} {c : Char} {rest : Str}
    (rep : Str) (fuel : Nat) (h : (t :: ts).isPrefixOf (c :: rest) = true) :
    replaceAllFuel t ts rep (fuel + 1) (c :: rest) =
      rep ++ replaceAllFuel t ts rep fuel (rest.drop ts.length) := by
  simp [replaceAllFuel, h]

theorem replaceAllFuel_cons_neg {t : Char} {ts : Str} {c : Char} {rest : Str}
    (rep : Str) (fuel : Nat) (h : (t :: ts).isPrefixOf (c :: rest) = false) :
    replaceAllFuel t ts rep (fuel + 1) (c :: rest) =
      c :: replaceAllFuel t ts rep fuel rest := by
  simp [replaceAllFuel, h]

/-- If a nonempty final segment `v` of the search string is a prefix of the
output of `replaceAll`, then `v` is a prefix of the input at this point:
the output cannot start inside a freshly inserted replacement because the
replacement's first character is not a character of the search string. -/
theorem pfx_of_replaceAllFuel {t : Char} {ts rep : Str} {r0 : Char} {rs : Str}
    (hrep : rep = r0 :: rs) (hr0 : r0 ∉ t :: ts) :
    ∀ (fuel : Nat) (s v u : Str), u ++ v = t :: ts → v ≠ [] →
      v.isPrefixOf (replaceAllFuel t ts rep fuel s) = true → v.isPrefixOf s = true := by
  intro fuel
  induction fuel with
  | zero =>
    intro s v u _ hv hp
    rw [replaceAllFuel_zero] at hp
    cases v with
    | nil => exact absurd rfl hv
    | cons v0 v' => simp [List.isPrefixOf] at hp
  | succ fuel ih =>
    intro s v u huv hv hp
    cases s with
    | nil =>
      rw [replaceAllFuel_nil] at hp
      cases v with
      | nil => exact absurd rfl hv
      | cons v0 v' => simp [List.isPrefixOf] at hp
    | cons c rest =>
      cases v with
      | nil => exact absurd rfl hv
      | cons v0 v' =>
        cases hpre : (t :: ts).isPrefixOf (c :: rest) with
        | true =>
          exfalso
          rw [replaceAllFuel_cons_pos rep fuel hpre, hrep, List.cons_append,
            isPrefixOf_cons_cons] at hp
          rw [Bool.and_eq_true] at hp
          have hv0 : v0 = r0 := by simpa using hp.1
          apply hr0
          rw [← hv0, ← huv]
          exact List.mem_append_right u (List.mem_cons_self v0 v')
        | false =>
          rw [replaceAllFuel_cons_neg rep fuel hpre, isPrefixOf_cons_cons,
            Bool.and_eq_true] at hp
          obtain ⟨h1, h2⟩ := hp
          rw [isPrefixOf_cons_cons, h1, Bool.true_and]
          cases v' with
          | nil => exact nil_isPrefixOf rest
          | cons w ws =>
            refine ih rest (w :: ws) (u ++ [v0]) ?_ (by simp) h2
            rw [List.append_assoc]
            exact huv

/-- After `replaceAll`, the search string no longer occurs in the output,
provided it does not occur in the replacement text and neither the first
nor the last character of the replacement is a character of the search
string (so no occurrence can span an insertion boundary). -/
theorem replaceAllFuel_no_token {t : Char} {ts rep : Str} {r0 r1 : Char} {rs0 rs1 : Str}
    (hsub : containsB rep (t :: ts) = false)
    (hhead : rep = r0 :: rs0) (hr0 : r0 ∉ t :: ts)
    (hlast : rep = rs1 ++ [r1]) (hr1 : r1 ∉ t :: ts) :
    ∀ (fuel : Nat) (s : Str),
      containsB (replaceAllFuel t ts rep fuel s) (t :: ts) = false := by
  intro fuel
  induction fuel with
  | zero =>
    intro s
    rw [replaceAllFuel_zero]
    rfl
  | succ fuel ih =>
    intro s
    cases s with
    | nil =>
      rw [replaceAllFuel_nil]
      rfl
    | cons c rest =>
      cases hpre : (t :: ts).isPrefixOf (c :: rest) with
      | true =>
        rw [replaceAllFuel_cons_pos rep fuel hpre]
        cases hc : containsB (rep ++ replaceAllFuel t ts rep fuel (rest.drop ts.length))
            (t :: ts) with
        | false => rfl
        | true =>
          exfalso
          rcases containsB_append_cases (by simp) hc with
            h1 | h2 | ⟨n1, n2, heq, hn1, _, ⟨p, hp⟩, _⟩
          · rw [hsub] at h1
            exact Bool.false_ne_true h1
          · rw [ih _] at h2
            exact Bool.false_ne_true h2
          · rw [hlast] at hp
            exact hr1 (heq ▸ List.mem_append_left n2 (mem_of_snoc_split hp hn1))
      | false =>
        rw [replaceAllFuel_cons_neg rep fuel hpre]
        have hrec := ih rest
        cases hL : (t :: ts).isPrefixOf (c :: replaceAllFuel t ts rep fuel rest) with
        | false => simp [containsB, hL, hrec]
        | true =>
          exfalso
          have : (t :: ts).isPrefixOf (c :: rest) = true := by
            have := pfx_of_replaceAllFuel hhead hr0 (fuel + 1) (c :: rest) (t :: ts) []
              rfl (by simp) ?_
            · exact this
            · rw [replaceAllFuel_cons_neg rep fuel hpre]
              exact hL
          rw [hpre] at this
          exact Bool.false_ne_true this

/-- If the search string occurred in the input and the fuel covers the
whole input, the replacement text occurs in the output. -/
theorem replaceAllFuel_has_rep {t : Char} {ts rep : Str} :
    ∀ (fuel : Nat) (s : Str), s.length ≤ fuel → containsB s (t :: ts) = true →
      containsB (replaceAllFuel t ts rep fuel s) rep = true := by
  intro fuel
  induction fuel with
  | zero =>
    intro s hlen hcont
    interval_cases hs : s.length
    · rw [List.length_eq_zero] at hs
      subst hs
      simp [containsB] at hcont
  | succ fuel ih =>
    intro s hlen hcont
    cases s with
    | nil => simp [containsB] at hcont
    | cons c rest =>
      cases hpre : (t :: ts).isPrefixOf (c :: rest) with
      | true =>
        rw [replaceAllFuel_cons_pos rep fuel hpre]
        exact containsB_append_left _ (containsB_self rep)
      | false =>
        rw [replaceAllFuel_cons_neg rep fuel hpre]
        apply containsB_cons_of
        apply ih rest (by simpa using Nat.le_of_succ_le_succ (by simpa using hlen))
        have : containsB (c :: rest) (t :: ts) =
            ((t :: ts).isPrefixOf (c :: rest) || containsB rest (t :: ts)) := rfl
        rw [this, hpre, Bool.false_or] at hcont
        exact hcont

/-- A takeWhile never reaches past a failing element of the first part
of an append. -/
theorem takeWhile_append_of_stop (p : Char → Bool) :
    ∀ (a b : Str), (∃ x ∈ a, p x = false) →
      (a ++ b).takeWhile p = a.takeWhile p := by
  intro a
  induction a with
  | nil =>
    rintro b ⟨x, hx, _⟩
    exact absurd hx (List.not_mem_nil x)
  | cons c a ih =>
    rintro b ⟨x, hx, hpx⟩
    rw [List.cons_append, List.takeWhile_cons, List.takeWhile_cons]
    cases hpc : p c with
    | false => rfl
    | true =>
      have hxa : x ∈ a := by
        rcases List.mem_cons.mp hx with rfl | h
        · rw [hpc] at hpx
          exact absurd hpx (by simp)
        · exact h
      rw [ih b ⟨x, hxa, hpx⟩]

/-- The redaction step on one string: with a valid token that is not a
substring of the placeholder, `replaceAll token placeholder` leaves no
occurrence of the token and inserts the placeholder whenever the token
occurred. -/
theorem jsReplaceAll_spec {tok s : Str} (hv : validId tok = true)
    (hph : containsB PH tok = false) :
    containsB (jsReplaceAll tok PH s) tok = false ∧
      (containsB s tok = true → containsB (jsReplaceAll tok PH s) PH = true) := by
  obtain ⟨hne, _⟩ := validId_mem hv
  cases tok with
  | nil => exact absurd rfl hne
  | cons t ts =>
    have hbr0 : '[' ∉ (t :: ts) := not_mem_of_validId hv (by decide)
    have hbr1 : ']' ∉ (t :: ts) := not_mem_of_validId hv (by decide)
    have hhead : PH = '[' :: cs "REDACTED]" := by decide
    have hlast : PH = cs "[REDACTED" ++ [']'] := by decide
    constructor
    · exact replaceAllFuel_no_token hph hhead hbr0 hlast hbr1 s.length s
    · intro hcont
      exact replaceAllFuel_has_rep s.length s le_rfl hcont

theorem ne_nil_of_containsB {h n : Str} (hn : n ≠ []) (hc : containsB h n = true) :
    h ≠ [] := by
  intro hnil
  subst hnil
  cases n with
  | nil => exact hn rfl
  | cons x xs => simp [containsB] at hc

/-! ### Claim C1 -/

/-- The userinfo component of the clone URL is always exactly `git`,
independently of the project identifier. -/
theorem urlUserinfo_cloneUrl (pid : Str) :
    urlUserinfo (cloneUrl pid) = some (cs "git") := by
  unfold urlUserinfo cloneUrl
  have h1 : cs "https://git@git.overleaf.com/" =
      cs "https://" ++ cs "git@git.overleaf.com/" := by decide
  rw [h1, List.append_assoc]
  have h2 : (cs "https://" ++ (cs "git@git.overleaf.com/" ++ pid)).drop 8 =
      cs "git@git.overleaf.com/" ++ pid := by
    have h8 : (8 : Nat) = (cs "https://").length := by decide
    rw [h8, List.drop_left]
  rw [h2, takeWhile_append_of_stop _ _ pid ⟨'/', by decide, by decide⟩]
  decide

/-- Claim C1, counterexample: the clone URL is not the credential-free
form `https://<host>/<id>`; it has the userinfo (username) component
`git`: for project id `abc` the argv URL is
`https://git@git.overleaf.com/abc`. -/
theorem claim_C1_counterexample :
    cloneUrl (cs "abc") ≠ cs "https://git.overleaf.com/" ++ cs "abc" ∧
    urlUserinfo (cloneUrl (cs "abc")) = some (cs "git") ∧
    containsB (cloneUrl (cs "abc")) (cs "git@") = true := by decide

/-- Claim C1 (amended): for every client, the URL passed in the clone
argument vector is the fixed host and the project identifier prefixed
with the fixed username `git`; the userinfo component is exactly `git`
and contains no `:`-separated password, so no token appears as a URL
credential. -/
theorem claim_C1_amended (pid : Str) :
    cloneUrl pid = cs "https://git@git.overleaf.com/" ++ pid ∧
    urlUserinfo (cloneUrl pid) = some (cs "git") ∧
    ':' ∉ cs "git" := by
  exact ⟨rfl, urlUserinfo_cloneUrl pid, by decide⟩

/-! ### Claim C2 -/

/-- Claim C2, counterexample: the token `RED` passes construction-time
validation, the error message `xREDy` contains it, and after redaction
the message (`x[REDACTED]y`) still contains the token as a substring,
because the token occurs inside the placeholder marker itself. -/
theorem claim_C2_counterexample :
    validId (cs "RED") = true ∧
    containsB (cs "xREDy") (cs "RED") = true ∧
    (redactError (cs "RED") { message := cs "xREDy" }).message = cs "x[REDACTED]y" ∧
    containsB (redactError (cs "RED") { message := cs "xREDy" }).message (cs "RED") = true := by
  decide

/-- Claim C2 (amended): for every valid token that is not itself a
substring of the placeholder marker, redaction removes the token from
each of message / captured stdout / captured stderr that contained it
(inserting the marker), leaves absent fields absent, and each present
field is rewritten by literal substring replacement
(`jsReplaceAll`, which scans for literal occurrences only). -/
theorem claim_C2_amended (tok : Str) (e : JsError)
    (hv : validId tok = true) (hph : containsB PH tok = false) :
    (containsB e.message tok = true →
      containsB (redactError tok e).message tok = false ∧
      containsB (redactError tok e).message PH = true ∧
      (redactError tok e).message = jsReplaceAll tok PH e.message) ∧
    (∀ s, e.stdout = some s → containsB s tok = true →
      (redactError tok e).stdout = some (jsReplaceAll tok PH s) ∧
      containsB (jsReplaceAll tok PH s) tok = false ∧
      containsB (jsReplaceAll tok PH s) PH = true) ∧
    (∀ s, e.stderr = some s → containsB s tok = true →
      (redactError tok e).stderr = some (jsReplaceAll tok PH s) ∧
      containsB (jsReplaceAll tok PH s) tok = false ∧
      containsB (jsReplaceAll tok PH s) PH = true) ∧
    (e.stdout = none → (redactError tok e).stdout = none) ∧
    (e.stderr = none → (redactError tok e).stderr = none) := by
  obtain ⟨hne, _⟩ := validId_mem hv
  have htokE : tok.isEmpty = false := by
    cases tok with
    | nil => exact absurd rfl hne
    | cons x xs => rfl
  refine ⟨?_, ?_, ?_, ?_, ?_⟩
  · intro hcont
    have hmsgE : e.message.isEmpty = false := by
      cases hmsg : e.message with
      | nil => rw [hmsg] at hcont; cases tok with
        | nil => exact absurd rfl hne
        | cons x xs => simp [containsB] at hcont
      | cons y ys => rfl
    have hred : (redactError tok e).message = jsReplaceAll tok PH e.message := by
      simp [redactError, htokE, hmsgE]
    rw [hred]
    exact ⟨(jsReplaceAll_spec hv hph).1, (jsReplaceAll_spec hv hph).2 hcont, rfl⟩
  · intro s hs hcont
    have hsE : s.isEmpty = false := by
      cases hs2 : s with
      | nil => rw [hs2] at hcont; cases tok with
        | nil => exact absurd rfl hne
        | cons x xs => simp [containsB] at hcont
      | cons y ys => rfl
    have : (redactError tok e).stdout = some (jsReplaceAll tok PH s) := by
      simp [redactError, redactOptField, hs, hsE]
    exact ⟨this, (jsReplaceAll_spec hv hph).1, (jsReplaceAll_spec hv hph).2 hcont⟩
  · intro s hs hcont
    have hsE : s.isEmpty = false := by
      cases hs2 : s with
      | nil => rw [hs2] at hcont; cases tok with
        | nil => exact absurd rfl hne
        | cons x xs => simp [containsB] at hcont
      | cons y ys => rfl
    have : (redactError tok e).stderr = some (jsReplaceAll tok PH s) := by
      simp [redactError, redactOptField, hs, hsE]
    exact ⟨this, (jsReplaceAll_spec hv hph).1, (jsReplaceAll_spec hv hph).2 hcont⟩
  · intro hs
    simp [redactError, redactOptField, hs]
  · intro hs
    simp [redactError, redactOptField, hs]

/-- Witness for the amended claim C2 at a concrete token and error. -/
theorem claim_C2_amended_witness :
    containsB (redactError (cs "secrettoken")
      { message := cs "auth secrettoken failed" }).message (cs "secrettoken") = false ∧
    containsB (redactError (cs "secrettoken")
      { message := cs "auth secrettoken failed" }).message PH = true := by
  have h := (claim_C2_amended (cs "secrettoken") { message := cs "auth secrettoken failed" }
    (by decide) (by decide)).1 (by decide)
  exact ⟨h.1, h.2.1⟩

/-! ### Claim C3 -/

/-- Claim C3, counterexample: both fields of a client may validly be the
same string, in which case the clone argument vector contains the token
as a substring of the URL element. -/
theorem claim_C3_counterexample :
    validId (cs "abc") = true ∧
    mkClient (cs "abc") (cs "abc") (cs "/tmp/overleaf-mcp") =
      Except.ok ⟨cs "abc", cs "abc", cs "/tmp/overleaf-mcp"⟩ ∧
    opArgvs ⟨cs "abc", cs "abc", cs "/tmp/overleaf-mcp"⟩ (RemoteOp.sync false) =
      [[cs "git", cs "clone", cloneUrl (cs "abc"),
        localPath ⟨cs "abc", cs "abc", cs "/tmp/overleaf-mcp"⟩]] ∧
    containsB (cloneUrl (cs "abc")) (cs "abc") = true :=
  ⟨by decide, rfl, rfl, by decide⟩

/-- Claim C3 (amended): provided the token does not occur as a substring
of the project identifier, of the working root, of any fixed command
word or URL prefix, or of the commit message, the token appears in no
element of any remote-touching operation's argument vector; the token
does occur in the credential-handler script content, which is where it
is written. -/
theorem claim_C3_amended (c : OverleafGitClient) (op : RemoteOp)
    (hv : validId c.gitToken = true)
    (hpid : containsB c.projectId c.gitToken = false)
    (htd : containsB c.tempDir c.gitToken = false)
    (hfix : ∀ w ∈ fixedGitWords, containsB w c.gitToken = false)
    (hmsg : ∀ m, op = RemoteOp.commitMsg m → containsB m c.gitToken = false) :
    (∀ a ∈ opArgvs c op, ∀ e ∈ a, containsB e c.gitToken = false) ∧
    containsB (askPassContent c.gitToken) c.gitToken = true := by
  obtain ⟨hne, _⟩ := validId_mem hv
  have hsl : '/' ∉ c.gitToken := not_mem_of_validId hv (by decide)
  have hurl : containsB (cloneUrl c.projectId) c.gitToken = false := by
    have hpre := hfix (cs "https://git@git.overleaf.com/") (by decide)
    have hsplit : cs "https://git@git.overleaf.com/" =
        cs "https://git@git.overleaf.com" ++ ['/'] := by decide
    rw [hsplit] at hpre
    rw [cloneUrl, hsplit]
    exact containsB_append_last hne hsl hpre hpid
  have hlocal : containsB (localPath c) c.gitToken = false := by
    have hslash : cs "/" = ['/'] := by decide
    have h1 : containsB (c.tempDir ++ ['/']) c.gitToken = false :=
      containsB_append_head hne hsl htd (containsB_singleton hne hsl)
    have h2 : localPath c = (c.tempDir ++ ['/']) ++ c.projectId := by
      unfold localPath joinPath
      rw [hslash]
    rw [h2]
    exact containsB_append_last hne hsl h1 hpid
  constructor
  · intro a ha e he
    cases op with
    | sync hasLocal =>
      cases hasLocal with
      | true =>
        simp [opArgvs] at ha
        subst ha
        simp at he
        rcases he with rfl | rfl
        · exact hfix _ (by decide)
        · exact hfix _ (by decide)
      | false =>
        simp [opArgvs] at ha
        subst ha
        simp at he
        rcases he with rfl | rfl | rfl | rfl
        · exact hfix _ (by decide)
        · exact hfix _ (by decide)
        · exact hurl
        · exact hlocal
    | commitMsg m =>
      simp [opArgvs] at ha
      rcases ha with rfl | rfl
      · simp at he
        rcases he with rfl | rfl | rfl
        · exact hfix _ (by decide)
        · exact hfix _ (by decide)
        · exact hfix _ (by decide)
      · simp at he
        rcases he with rfl | rfl | rfl | rfl
        · exact hfix _ (by decide)
        · exact hfix _ (by decide)
        · exact hfix _ (by decide)
        · exact hmsg _ rfl
    | push =>
      simp [opArgvs] at ha
      subst ha
      simp at he
      rcases he with rfl | rfl
      · exact hfix _ (by decide)
      · exact hfix _ (by decide)
  · exact (containsB_iff _ _).mpr ⟨cs "#!/bin/sh\necho '", cs "'\n", rfl⟩

/-- Witness for the amended claim C3 at a concrete client and operation. -/
theorem claim_C3_amended_witness :
    containsB (cloneUrl (cs "proj1")) (cs "tokenZZ9") = false ∧
    containsB (askPassContent (cs "tokenZZ9")) (cs "tokenZZ9") = true := by
  have h := claim_C3_amended ⟨cs "tokenZZ9", cs "proj1", cs "/tmp/overleaf-mcp"⟩
    (RemoteOp.sync false) (by decide) (by decide) (by decide) (by decide)
    (fun m hm => RemoteOp.noConfusion hm)
  refine ⟨h.1 [cs "git", cs "clone", cloneUrl (cs "proj1"),
    localPath ⟨cs "tokenZZ9", cs "proj1", cs "/tmp/overleaf-mcp"⟩] (by decide)
    (cloneUrl (cs "proj1")) (by decide), h.2⟩

/-! ### Claim C4 -/

/-- Claim C4: every remote-touching operation (sync, commit, push), on
every outcome, ends with the credential-handler record cleared and the
handler file no longer present (state freshness of the incoming state
assumed: a freshly generated path does not pre-exist and a recorded one
is not duplicated). -/
theorem claim_C4_cleanup (c : OverleafGitClient) (uuid : Str) (st : FsState)
    (hfresh : freshOk c uuid st) :
    (∀ probe g, (cloneOrPull c uuid probe g st).2.2.askPassScript = none ∧
      handlerPath c uuid st ∉ (cloneOrPull c uuid probe g st).2.2.files) ∧
    (∀ g, (commitOp c uuid g st).2.askPassScript = none ∧
      handlerPath c uuid st ∉ (commitOp c uuid g st).2.files) ∧
    (∀ g, (pushOp c uuid g st).2.askPassScript = none ∧
      handlerPath c uuid st ∉ (pushOp c uuid g st).2.files) := by
  have key : (cleanupAskPass (createAskPass c uuid st).2).askPassScript = none ∧
      handlerPath c uuid st ∉ (cleanupAskPass (createAskPass c uuid st).2).files := by
    obtain ⟨script, files⟩ := st
    cases script with
    | none =>
      refine ⟨rfl, ?_⟩
      show askPassPath c uuid ∉ (askPassPath c uuid :: files).erase (askPassPath c uuid)
      rw [List.erase_cons_head]
      exact hfresh
    | some q =>
      refine ⟨rfl, ?_⟩
      show q ∉ files.erase q
      rw [← List.count_eq_zero, List.count_erase_self]
      have hf : files.count q ≤ 1 := hfresh
      omega
  exact ⟨fun _ _ => key, fun _ => key, fun _ => key⟩

/-- Witness for claim C4 at a concrete client, state and outcome. -/
theorem claim_C4_cleanup_witness :
    (cloneOrPull ⟨cs "tok1", cs "proj1", cs "/tmp/o"⟩ (cs "u1") ProbeResult.found
      (Except.ok (cs "done")) ⟨none, []⟩).2.2.askPassScript = none ∧
    handlerPath ⟨cs "tok1", cs "proj1", cs "/tmp/o"⟩ (cs "u1") ⟨none, []⟩ ∉
      (cloneOrPull ⟨cs "tok1", cs "proj1", cs "/tmp/o"⟩ (cs "u1") ProbeResult.found
        (Except.ok (cs "done")) ⟨none, []⟩).2.2.files :=
  (claim_C4_cleanup ⟨cs "tok1", cs "proj1", cs "/tmp/o"⟩ (cs "u1") ⟨none, []⟩
    (List.not_mem_nil _)).1 ProbeResult.found (Except.ok (cs "done"))

/-! ### Claim C5 -/

/-- Claim C5, counterexample: a probe failure other than "not found"
(`errorOther`) is not surfaced: the sync still runs the clone action and
returns its result, here a success. -/
theorem claim_C5_counterexample :
    (cloneOrPull ⟨cs "tok1", cs "proj1", cs "/tmp/o"⟩ (cs "u1") ProbeResult.errorOther
      (Except.ok (cs "cloned")) ⟨none, []⟩).1 = Except.ok () ∧
    (cloneOrPull ⟨cs "tok1", cs "proj1", cs "/tmp/o"⟩ (cs "u1") ProbeResult.errorOther
      (Except.ok (cs "cloned")) ⟨none, []⟩).2.1 = SyncAction.cloned :=
  ⟨rfl, rfl⟩

/-- Claim C5 (amended): every probe outcome other than "found" —
including filesystem errors distinct from "not found" — is treated as
absence and triggers the clone action, and the probe outcome never
changes the returned result (probe failures are not surfaced). -/
theorem claim_C5_amended (c : OverleafGitClient) (uuid : Str) (probe : ProbeResult)
    (g : Except JsError Str) (st : FsState) :
    (probe ≠ ProbeResult.found →
      (cloneOrPull c uuid probe g st).2.1 = SyncAction.cloned) ∧
    (cloneOrPull c uuid probe g st).1 = (cloneOrPull c uuid ProbeResult.found g st).1 := by
  constructor
  · intro hp
    cases probe with
    | found => exact absurd rfl hp
    | notFound => rfl
    | errorOther => rfl
  · rfl

/-- Witness for the amended claim C5. -/
theorem claim_C5_amended_witness :
    (cloneOrPull ⟨cs "tok1", cs "proj1", cs "/tmp/o"⟩ (cs "u1") ProbeResult.notFound
      (Except.ok (cs "out")) ⟨none, []⟩).2.1 = SyncAction.cloned :=
  (claim_C5_amended ⟨cs "tok1", cs "proj1", cs "/tmp/o"⟩ (cs "u1") ProbeResult.notFound
    (Except.ok (cs "out")) ⟨none, []⟩).1 (by decide)

/-! ### Claim C6 -/

/-- Claim C6: a commit failure resolves to the benign success value
exactly when the combined `message + " " + stdout` text contains the
"nothing to commit" marker (in particular when the marker is only in
stdout, or only in the message); otherwise commit throws. -/
theorem claim_C6_commit (c : OverleafGitClient) (uuid : Str) (st : FsState) (e : JsError) :
    (exceptIsOk (commitOp c uuid (Except.error e) st).1 = true ↔
      containsB (e.message ++ cs " " ++ e.stdout.getD []) (cs "nothing to commit") = true) ∧
    (containsB (e.message ++ cs " " ++ e.stdout.getD []) (cs "nothing to commit") = true →
      (commitOp c uuid (Except.error e) st).1 = Except.ok commitBenign) := by
  cases hm : containsB (e.message ++ cs " " ++ e.stdout.getD []) (cs "nothing to commit") with
  | true =>
    rw [List.append_assoc] at hm
    constructor
    · simp [commitOp, hm, exceptIsOk]
    · intro _
      simp [commitOp, hm]
  | false =>
    constructor
    · rw [List.append_assoc] at hm
      cases ht : containsB e.message (cs "timeout") with
      | true => simp [commitOp, hm, ht, exceptIsOk]
      | false => simp [commitOp, hm, ht, exceptIsOk]
    · intro h
      exact Bool.noConfusion h

/-- The concrete commit failure used as the claim C6 witness: the
"nothing to commit" marker appears only in captured stdout. -/
def commitErrEx : JsError :=
  { message := cs "Command failed: git commit -m msg"
    stdout := some (cs "On branch master nothing to commit, working tree clean") }

/-- Witness for claim C6: the marker appears only in captured stdout. -/
theorem claim_C6_commit_witness :
    (commitOp ⟨cs "tok1", cs "proj1", cs "/tmp/o"⟩ (cs "u1")
      (Except.error commitErrEx) ⟨none, []⟩).1 = Except.ok commitBenign :=
  (claim_C6_commit ⟨cs "tok1", cs "proj1", cs "/tmp/o"⟩ (cs "u1") ⟨none, []⟩
    commitErrEx).2 (by decide)

/-! ### Claim C7 -/

/-- Claim C7: push failures are redacted first and then classified in
order: a redacted message containing "timeout" yields the
network-timeout message; otherwise one containing "403" yields the
auth-specific message; otherwise the generic "Push failed" wrap of the
redacted message. -/
theorem claim_C7_push (c : OverleafGitClient) (uuid : Str) (st : FsState) (e : JsError) :
    (containsB (redactError c.gitToken e).message (cs "timeout") = true →
      (pushOp c uuid (Except.error e) st).1 =
        Except.error (cs "Push operation timed out - check network connection")) ∧
    (containsB (redactError c.gitToken e).message (cs "timeout") = false →
      containsB (redactError c.gitToken e).message (cs "403") = true →
      (pushOp c uuid (Except.error e) st).1 =
        Except.error (cs "Push failed: Authentication error - check git token")) ∧
    (containsB (redactError c.gitToken e).message (cs "timeout") = false →
      containsB (redactError c.gitToken e).message (cs "403") = false →
      (pushOp c uuid (Except.error e) st).1 =
        Except.error (cs "Push failed: " ++ (redactError c.gitToken e).message)) := by
  refine ⟨fun h1 => ?_, fun h1 h2 => ?_, fun h1 h2 => ?_⟩
  · simp [pushOp, h1]
  · simp [pushOp, h1, h2]
  · simp [pushOp, h1, h2]

/-- Witness for claim C7: a redacted 403 failure without "timeout" is
reported with the auth-specific message, not the generic one. -/
theorem claim_C7_push_witness :
    (pushOp ⟨cs "tok1", cs "proj1", cs "/tmp/o"⟩ (cs "u1")
      (Except.error { message := cs "remote rejected: HTTP 403 Forbidden" }) ⟨none, []⟩).1 =
      Except.error (cs "Push failed: Authentication error - check git token") :=
  (claim_C7_push ⟨cs "tok1", cs "proj1", cs "/tmp/o"⟩ (cs "u1") ⟨none, []⟩
    { message := cs "remote rejected: HTTP 403 Forbidden" }).2.1 (by decide) (by decide)

/-! ### Claim C8 -/

/-- Claim C8: the credential-handler file has a path containing the
project identifier and the fresh random component, owner-only
permission bits (7,0,0), and its content is exactly the interpreter
directive line followed by one `echo` command whose sh semantics write
the literal token to standard output. -/
theorem claim_C8_askpass (c : OverleafGitClient) (uuid : Str)
    (hv : validId c.gitToken = true) :
    containsB (askPassPath c uuid) c.projectId = true ∧
    containsB (askPassPath c uuid) uuid = true ∧
    modeOwner askPassMode = 7 ∧ modeGroup askPassMode = 0 ∧ modeOther askPassMode = 0 ∧
    askPassContent c.gitToken =
      (cs "#!/bin/sh" ++ ['\n']) ++ ((cs "echo '" ++ c.gitToken ++ cs "'") ++ ['\n']) ∧
    shEchoOutput (cs "echo '" ++ c.gitToken ++ cs "'") = some (c.gitToken ++ ['\n']) := by
  refine ⟨?_, ?_, by decide, by decide, by decide, ?_, ?_⟩
  · refine (containsB_iff _ _).mpr ⟨c.tempDir ++ cs "/askpass-", cs "-" ++ uuid ++ cs ".sh", ?_⟩
    simp [askPassPath, List.append_assoc]
  · refine (containsB_iff _ _).mpr
      ⟨c.tempDir ++ cs "/askpass-" ++ c.projectId ++ cs "-", cs ".sh", ?_⟩
    simp [askPassPath, List.append_assoc]
  · have h1 : cs "#!/bin/sh\necho '" = (cs "#!/bin/sh" ++ ['\n']) ++ cs "echo '" := by decide
    have h2 : cs "'\n" = cs "'" ++ ['\n'] := by decide
    rw [askPassContent, h1, h2]
    simp [List.append_assoc]
  · have hassoc : cs "echo '" ++ c.gitToken ++ cs "'" =
        cs "echo '" ++ (c.gitToken ++ cs "'") := List.append_assoc _ _ _
    have h6 : (6 : Nat) = (cs "echo '").length := by decide
    have hdrop : (cs "echo '" ++ (c.gitToken ++ cs "'")).drop 6 = c.gitToken ++ cs "'" := by
      rw [h6, List.drop_left]
    have hq : cs "'" = ['\''] := by decide
    have hlastq : (c.gitToken ++ cs "'").getLast? = some '\'' := by
      rw [hq]
      exact List.getLast?_concat _
    have hdl : (c.gitToken ++ cs "'").dropLast = c.gitToken := by
      rw [hq]
      exact List.dropLast_concat
    have hnoq : c.gitToken.contains '\'' = false := by
      cases hcq : c.gitToken.contains '\'' with
      | false => rfl
      | true => exact absurd (List.elem_iff.mp hcq) (not_mem_of_validId hv (by decide))
    unfold shEchoOutput
    rw [hassoc, hdrop, hlastq, hdl, hnoq]
    simp [prefixOf_append_self]

/-- Witness for claim C8 at the concrete token/project of the repo's
end-to-end test. -/
theorem claim_C8_askpass_witness :
    containsB (askPassPath ⟨cs "testtoken123", cs "testproject456", cs "/tmp/o"⟩
      (cs "uuid-1234")) (cs "testproject456") = true ∧
    shEchoOutput (cs "echo '" ++ cs "testtoken123" ++ cs "'") =
      some (cs "testtoken123" ++ ['\n']) := by
  have h := claim_C8_askpass ⟨cs "testtoken123", cs "testproject456", cs "/tmp/o"⟩
    (cs "uuid-1234") (by decide)
  exact ⟨h.1, h.2.2.2.2.2.2⟩

/-! ### Claim C9 -/

theorem validId_iff (s : Str) :
    validId s = true ↔ (s ≠ [] ∧ ∀ x ∈ s, isTokenChar x = true) := by
  constructor
  · exact validId_mem
  · rintro ⟨h1, h2⟩
    unfold validId
    rw [Bool.and_eq_true]
    refine ⟨?_, List.all_eq_true.mpr h2⟩
    cases s with
    | nil => exact absurd rfl h1
    | cons x xs => rfl

/-- Claim C9: construction succeeds exactly when both the token and the
project identifier are nonempty strings over `[A-Za-z0-9_-]`; on
failure the validation error names the offending field (`projectId`
checked first, then `gitToken`). -/
theorem claim_C9_validation (tok pid td : Str) :
    ((∃ cl, mkClient tok pid td = Except.ok cl) ↔
      (validId tok = true ∧ validId pid = true)) ∧
    (validId pid = false →
      mkClient tok pid td = Except.error errProjectId ∧
      containsB errProjectId (cs "projectId") = true) ∧
    (validId pid = true → validId tok = false →
      mkClient tok pid td = Except.error errGitToken ∧
      containsB errGitToken (cs "gitToken") = true) ∧
    (validId tok = true ↔ (tok ≠ [] ∧ ∀ x ∈ tok, isTokenChar x = true)) := by
  refine ⟨?_, fun hp => ⟨by simp [mkClient, hp], by decide⟩,
    fun hp ht => ⟨by simp [mkClient, hp, ht], by decide⟩, validId_iff tok⟩
  constructor
  · rintro ⟨cl, hcl⟩
    cases hp : validId pid with
    | false => simp [mkClient, hp] at hcl
    | true =>
      cases ht : validId tok with
      | false => simp [mkClient, hp, ht] at hcl
      | true => exact ⟨rfl, rfl⟩
  · rintro ⟨ht, hp⟩
    exact ⟨⟨tok, pid, td⟩, by simp [mkClient, ht, hp]⟩

/-- Witness for claim C9: a path-traversal project id is rejected with
the error naming `projectId`. -/
theorem claim_C9_validation_witness :
    mkClient (cs "validtoken") (cs "../../etc") (cs "/tmp/o") = Except.error errProjectId ∧
    containsB errProjectId (cs "projectId") = true :=
  (claim_C9_validation (cs "validtoken") (cs "../../etc") (cs "/tmp/o")).2.1 (by decide)

/-! ### Claim C10 -/

/-- Claim C10: with the extension argument omitted the filter defaults
to the `.tex` name suffix; passing an explicitly empty or null filter
value lists every file; on a tree with a non-`.tex` file the two
results differ (the default does not list every file). -/
theorem claim_C10_listFiles (root : List FsEntry) :
    listFilesModel JsExtArg.omitted root =
      walkEntries (fun n => jsEndsWith n (cs ".tex")) [] root ∧
    listFilesModel JsExtArg.omitted root = listFilesModel (JsExtArg.strArg (cs ".tex")) root ∧
    listFilesModel (JsExtArg.strArg []) root = walkEntries (fun _ => true) [] root ∧
    listFilesModel JsExtArg.nullArg root = walkEntries (fun _ => true) [] root ∧
    listFilesModel JsExtArg.omitted
        [FsEntry.file (cs "main.tex"), FsEntry.file (cs "refs.bib")] ≠
      listFilesModel JsExtArg.nullArg
        [FsEntry.file (cs "main.tex"), FsEntry.file (cs "refs.bib")] := by
  have hf1 : extKeep (defaultExt JsExtArg.omitted) = fun n => jsEndsWith n (cs ".tex") := by
    funext n
    have hE : (cs ".tex").isEmpty = false := by decide
    simp [extKeep, defaultExt, hE]
  have hf3 : extKeep (defaultExt (JsExtArg.strArg [])) = fun _ => true := by
    funext n
    simp [extKeep, defaultExt]
  have hf4 : extKeep (defaultExt JsExtArg.nullArg) = fun _ => true := by
    funext n
    rfl
  refine ⟨?_, rfl, ?_, ?_, by decide⟩
  · unfold listFilesModel
    rw [hf1]
  · unfold listFilesModel
    rw [hf3]
  · unfold listFilesModel
    rw [hf4]

end OverleafMCP

